import Mathlib

/-!
A shallow embedding of `simple_value_object/value_object.py` and proofs about
the behaviour of its construction pipeline, equality, string representation,
hashing and immutability guard.

Python values are modelled by the inductive type `PyValue`; an instance
attribute dictionary (`self.__dict__`) is modelled as an association list with
Python `dict` semantics: `updateEntry` is `d[k] = v`, `lookupEntry` is `d[k]`,
and building a dict from a pair list (`dict(pairs)`, later pairs winning) is
`updateAll [] pairs`.
-/

namespace SVO

/-- Model of the Python values the library manipulates.  Dictionary keys are
modelled as strings (which is all the library's own code ever produces for
`self.__dict__`, and enough to exercise nested containers).  `frozenDictV`
models the library's `immutable_dict` subclass of `dict`. -/
inductive PyValue where
  | noneV : PyValue
  | boolV : Bool → PyValue
  | intV : Int → PyValue
  | strV : String → PyValue
  | listV : List PyValue → PyValue
  | tupleV : List PyValue → PyValue
  | setV : List PyValue → PyValue
  | dictV : List (String × PyValue) → PyValue
  | frozenDictV : List (String × PyValue) → PyValue

/-- `value is None` (the membership test `None in args` only matches `None`
itself for the built-in values modelled here). -/
def PyValue.isNone : PyValue → Bool
  | .noneV => true
  | _ => false

/-- `isinstance(value, bool)` — in Python only `True`/`False` satisfy it
(plain ints do not, `bool` being a strict subclass of `int`). -/
def PyValue.isBool : PyValue → Bool
  | .boolV _ => true
  | _ => false

/-- One attribute dictionary: an insertion-ordered association list. -/
abbrev Entries := List (String × PyValue)

/-- Python `d[k]`: the value stored for key `k`.  For the dictionaries the
library builds, keys are unique, so first match equals only match. -/
def lookupEntry : Entries → String → Option PyValue
  | [], _ => none
  | (k2, v) :: rest, k => if k = k2 then some v else lookupEntry rest k

/-- Python `d[k] = v`: replace the value in place if the key is present,
otherwise append the new key at the end (insertion order semantics). -/
def updateEntry : Entries → String → PyValue → Entries
  | [], k, v => [(k, v)]
  | (k2, v2) :: rest, k, v =>
    if k2 = k then (k2, v) :: rest else (k2, v2) :: updateEntry rest k v

/-- Python `d.update(pairs)` / `dict(pairs)` (the latter with `d = []`):
perform the single-key updates left to right, later pairs winning. -/
def updateAll (d : Entries) (l : Entries) : Entries :=
  l.foldl (fun acc kv => updateEntry acc kv.1 kv.2) d

/-- The value associated to `k` by the *last* pair of the list naming it —
exactly the value `dict(l)[k]` ends up holding. -/
def lastLookup : Entries → String → Option PyValue
  | [], _ => none
  | (k2, v) :: rest, k =>
    match lastLookup rest k with
    | some w => some w
    | none => if k = k2 then some v else none

/-- The key sequence of an attribute dictionary. -/
def keysOf (d : Entries) : List String := d.map Prod.fst

/-- The exceptions raised by `value_object.py` (named after the classes it
imports from `simple_value_object.exceptions`), plus Python's built-in
`AttributeError`, which `__ne__` triggers by reading `None.__dict__`.
`violatedInvariantE` carries the data interpolated into the exception message:
`list(self.__dict__.values())` and the identity of the failing invariant
(modelled by its name). -/
inductive Err where
  | notDeclaredArgsE : Err
  | argWithoutValueE : Err
  | cannotBeChangeE : Err
  | violatedInvariantE : List PyValue → String → Err
  | invariantReturnValueE : Err
  | attributeErrorE : Err

/-- The per-value conversion inside
`replace_mutable_kwargs_with_immutable_types`: a `dict` becomes an
`immutable_dict` built from the same (unconverted) items, a `list` or `set`
becomes a `tuple` of the same (unconverted) elements; everything else is left
alone.  The entries/elements are kept as they are, so freezing is shallow. -/
def freezeValue : PyValue → PyValue
  | .dictV es => .frozenDictV es
  | .listV xs => .tupleV xs
  | .setV xs => .tupleV xs
  | v => v

/-- `MIN_NUMBER_ARGS` from the source. -/
def MIN_NUMBER_ARGS : Nat := 1

/-- The declared shape and invariants of a class deriving from `ValueObject`:
`args` is `ArgsSpec(self.__init__).args` (the constructor parameter names,
the receiver `self` included), `defaults` the declared default values (aligned
with the *last* parameters, as in Python), and `invariants` the predicates
`obtain_invariants` discovers on the class, listed in discovery order and
identified by name.  Each invariant reads the fully bound instance, modelled
by its attribute dictionary. -/
structure VOClass where
  name : String
  args : List String
  defaults : List PyValue
  invariants : List (String × (Entries → PyValue))

/-- A constructed instance: its class and its `self.__dict__`. -/
structure VOInstance where
  cls : VOClass
  dict : Entries

/-- `check_class_are_initialized` from the source: raise
`NotDeclaredArgsException` when the constructor declares no parameter beyond
the receiver (`len(args_spec.args) <= MIN_NUMBER_ARGS`), then raise
`ArgWithoutValueException` when `None` occurs among the positional values. -/
def check_class_preconditions (cls : VOClass) (args : List PyValue) :
    Except Err Unit :=
  if cls.args.length ≤ MIN_NUMBER_ARGS then .error .notDeclaredArgsE
  else if args.any PyValue.isNone then .error .argWithoutValueE
  else .ok ()

/-- `replace_mutable_kwargs_with_immutable_types`: convert each *keyword*
value with `freezeValue`.  Positional values are not touched by the source. -/
def replace_mutable_kwargs_with_immutable_types (kwargs : Entries) : Entries :=
  kwargs.map fun kv => (kv.1, freezeValue kv.2)

/-- `assign_default_values`:
`self.__dict__.update(dict(zip(args_spec.args[:0:-1], defaults[::-1])))` —
pair the declared parameter names, last first, with the default values, last
first, and install them into the (empty) instance dictionary. -/
def assign_default_values (cls : VOClass) : Entries :=
  updateAll [] (((cls.args.drop 1).reverse).zip cls.defaults.reverse)

/-- `override_default_values_with_args`:
`self.__dict__.update(dict(list(zip(args_spec.args[1:], args)) + list(kwargs.items())))` —
build one dictionary from the positional pairs followed by the keyword pairs
(later pairs winning) and install it over the defaults. -/
def override_default_values_with_args (cls : VOClass) (args : List PyValue)
    (kwargs : Entries) (d : Entries) : Entries :=
  updateAll d (updateAll [] (((cls.args.drop 1).zip args) ++ kwargs))

/-- `assign_instance_arguments`: defaults first, then the override pass. -/
def assign_instance_arguments (cls : VOClass) (args : List PyValue)
    (kwargs : Entries) : Entries :=
  override_default_values_with_args cls args kwargs (assign_default_values cls)

/-- The attribute dictionary a construction request ends up with: the kwargs
are frozen first (`replace_mutable_kwargs_with_immutable_types` runs before
`assign_instance_arguments` in `__new__`). -/
def requestFields (cls : VOClass) (args : List PyValue) (kwargs : Entries) :
    Entries :=
  assign_instance_arguments cls args
    (replace_mutable_kwargs_with_immutable_types kwargs)

/-- `invariant_execute`: run the predicate on the bound instance; a non-`bool`
result raises `InvariantReturnValueException`, otherwise the boolean is the
verdict. -/
def invariant_execute (inv : Entries → PyValue) (d : Entries) :
    Except Err Bool :=
  match inv d with
  | .boolV b => .ok b
  | _ => .error .invariantReturnValueE

/-- `check_invariants`: run the discovered invariants in order; the first
failing one raises `ViolatedInvariantException` carrying
`list(self.__dict__.values())` and the invariant's identity. -/
def check_invariants (invs : List (String × (Entries → PyValue)))
    (d : Entries) : Except Err Unit :=
  match invs with
  | [] => .ok ()
  | (nm, inv) :: rest =>
    match invariant_execute inv d with
    | .error e => .error e
    | .ok false => .error (.violatedInvariantE (d.map Prod.snd) nm)
    | .ok true => check_invariants rest d

/-- `ValueObject.__new__`: the whole construction pipeline —
`check_class_are_initialized()`, `replace_mutable_kwargs_with_immutable_types()`,
`assign_instance_arguments()`, `check_invariants()`, then return `self`. -/
def construct (cls : VOClass) (args : List PyValue) (kwargs : Entries) :
    Except Err VOInstance :=
  match check_class_preconditions cls args with
  | .error e => .error e
  | .ok _ =>
    match check_invariants cls.invariants (requestFields cls args kwargs) with
    | .error e => .error e
    | .ok _ => .ok ⟨cls, requestFields cls args kwargs⟩

mutual

/-- Python `==` on the modelled values: structural on scalars, pointwise on
`list`/`tuple`, extensional (mutual inclusion) on `set`, and extensional by
key on `dict`; an `immutable_dict` inherits `dict.__eq__`, so it compares
equal to any mapping with the same items.  Values of different kinds are
unequal. -/
def pyEq : PyValue → PyValue → Bool
  | .noneV, .noneV => true
  | .boolV a, .boolV b => a == b
  | .intV a, .intV b => a == b
  | .strV a, .strV b => a == b
  | .listV a, .listV b => pyEqList a b
  | .tupleV a, .tupleV b => pyEqList a b
  | .setV a, .setV b => pySubset a b && pySubset b a
  | .dictV a, .dictV b => dictSub a b && dictSub b a
  | .dictV a, .frozenDictV b => dictSub a b && dictSub b a
  | .frozenDictV a, .dictV b => dictSub a b && dictSub b a
  | .frozenDictV a, .frozenDictV b => dictSub a b && dictSub b a
  | _, _ => false
termination_by a b => sizeOf a + sizeOf b

/-- Pointwise `==` of two Python sequences. -/
def pyEqList : List PyValue → List PyValue → Bool
  | [], [] => true
  | a :: as, b :: bs => pyEq a b && pyEqList as bs
  | _, _ => false
termination_by a b => sizeOf a + sizeOf b

/-- Every element of the first list is `==` to some element of the second. -/
def pySubset : List PyValue → List PyValue → Bool
  | [], _ => true
  | a :: as, bs => pyMem a bs && pySubset as bs
termination_by a b => sizeOf a + sizeOf b

/-- `a` is `==` to some element of the list. -/
def pyMem : PyValue → List PyValue → Bool
  | _, [] => false
  | a, b :: bs => pyEq a b || pyMem a bs
termination_by a b => sizeOf a + sizeOf b

/-- Every item of the first dictionary occurs, with an `==` value, in the
second. -/
def dictSub : List (String × PyValue) → List (String × PyValue) → Bool
  | [], _ => true
  | (k, v) :: rest, other => entryMem k v other && dictSub rest other
termination_by a b => sizeOf a + sizeOf b

/-- The item `(k, v)` occurs (key equal, value `==`) in the dictionary. -/
def entryMem : String → PyValue → List (String × PyValue) → Bool
  | _, _, [] => false
  | k, v, (k2, v2) :: rest => (k == k2 && pyEq v v2) || entryMem k v rest
termination_by k v l => sizeOf v + sizeOf l

end

/-- Python `d1 == d2` for two attribute dictionaries. -/
def dictEqPy (d1 d2 : Entries) : Bool :=
  dictSub d1 d2 && dictSub d2 d1

mutual

/-- Python `repr` of a value, as far as the modelled values go: `None`,
`True`/`False`, decimal integers, quoted strings, `[..]`, `(..)` (with the
trailing comma of a one-element tuple), `\x7b..\x7d` for sets and dicts
(`set()` for the empty set), `immutable_dict` inheriting `dict.__repr__`. -/
def pyRepr : PyValue → String
  | .noneV => "None"
  | .boolV true => "True"
  | .boolV false => "False"
  | .intV n => toString n
  | .strV s => "\x27" ++ s ++ "\x27"
  | .listV xs => "[" ++ pyReprJoin xs ++ "]"
  | .tupleV [x] => "(" ++ pyRepr x ++ ",)"
  | .tupleV xs => "(" ++ pyReprJoin xs ++ ")"
  | .setV [] => "set()"
  | .setV xs => "\x7b" ++ pyReprJoin xs ++ "\x7d"
  | .dictV es => "\x7b" ++ pyReprEntries es ++ "\x7d"
  | .frozenDictV es => "\x7b" ++ pyReprEntries es ++ "\x7d"
termination_by v => sizeOf v

/-- Comma-separated `repr`s of a list of values. -/
def pyReprJoin : List PyValue → String
  | [] => ""
  | [x] => pyRepr x
  | x :: xs => pyRepr x ++ ", " ++ pyReprJoin xs
termination_by l => sizeOf l

/-- Comma-separated `repr`s of the items of a dictionary. -/
def pyReprEntries : List (String × PyValue) → String
  | [] => ""
  | [(k, v)] => "\x27" ++ k ++ "\x27: " ++ pyRepr v
  | (k, v) :: rest => "\x27" ++ k ++ "\x27: " ++ pyRepr v ++ ", " ++ pyReprEntries rest
termination_by l => sizeOf l

end

/-- Python `str` of a value, which is what `"{}={}".format` applies: the raw
text for a string, `repr` for everything else modelled here. -/
def pyStr : PyValue → String
  | .strV s => s
  | v => pyRepr v

/-- The list comprehension of `ValueObject.__repr__`:
`["{}={}".format(arg, getattr(self, arg)) for arg in args_spec.args[1:]]`.
`getattr` on an unbound name raises `AttributeError`, modelled by `none`. -/
def reprParts (d : Entries) : List String → Option (List String)
  | [] => some []
  | f :: fs =>
    match lookupEntry d f with
    | none => none
    | some v =>
      match reprParts d fs with
      | none => none
      | some rest => some ((f ++ "=" ++ pyStr v) :: rest)

/-- `ValueObject.__repr__`: `"{}({})".format(cls_name, ", ".join(parts))`,
the fields enumerated in declaration order. -/
def reprVO (inst : VOInstance) : Option String :=
  (reprParts inst.dict (inst.cls.args.drop 1)).map
    fun parts => inst.cls.name ++ "(" ++ String.intercalate ", " parts ++ ")"

/-- A deterministic stand-in for the runtime string hash used by
`ValueObject.hash` (`hash(repr(self))`).  CPython's string hash is seeded per
process; the only property the library relies on is that it is a fixed
function of the representation string, which any concrete function models. -/
def pyhash (s : String) : Int :=
  s.foldl (fun h c => (h * 1000003 + (c.toNat : Int)) % 2305843009213693951) 5381

/-- `ValueObject.__hash__` / the `hash` property: the hash of the
representation string. -/
def hashVO (inst : VOInstance) : Option Int :=
  (reprVO inst).map pyhash

/-- `ValueObject.__eq__`: `False` against `None`, otherwise
`self.__dict__ == other.__dict__`.  The `other` operand is an instance or
`None` (the cases the specification speaks about). -/
def vo_eq (a : VOInstance) (other : Option VOInstance) : Bool :=
  match other with
  | none => false
  | some b => dictEqPy a.dict b.dict

/-- `ValueObject.__ne__`: `self.__dict__ != other.__dict__`.  Unlike
`__eq__`, it has no `None` guard: evaluating `None.__dict__` raises the
built-in `AttributeError`. -/
def vo_ne (a : VOInstance) (other : Option VOInstance) : Except Err Bool :=
  match other with
  | none => .error .attributeErrorE
  | some b => .ok (! dictEqPy a.dict b.dict)

/-- `ValueObject.__setattr__`: unconditionally raise
`CannotBeChangeException`.  The attempt is modelled as a state transition
returning the raised exception together with the (unchanged) instance. -/
def vo_setattr (inst : VOInstance) (name : String) (value : PyValue) :
    Err × VOInstance :=
  (.cannotBeChangeE, inst)

/-! ### Dictionary lemmas -/

theorem updateAll_cons (d : Entries) (kv : String × PyValue) (l : Entries) :
    updateAll d (kv :: l) = updateAll (updateEntry d kv.1 kv.2) l := rfl

theorem lookupEntry_updateEntry (d : Entries) (k q : String) (v : PyValue) :
    lookupEntry (updateEntry d k v) q = if q = k then some v else lookupEntry d q := by
  induction d with
  | nil => simp [updateEntry, lookupEntry]
  | cons kv rest ih =>
    obtain ⟨k2, v2⟩ := kv
    by_cases h1 : k2 = k
    · subst h1
      simp only [updateEntry, if_pos rfl, lookupEntry]
      by_cases h2 : q = k2 <;> simp [h2, lookupEntry]
    · simp only [updateEntry, if_neg h1, lookupEntry, ih]
      by_cases h2 : q = k2
      · subst h2
        have : ¬ q = k := fun h => h1 (h ▸ rfl)
        simp [this]
      · simp [h2]

theorem lookupEntry_updateAll (l : Entries) : ∀ (d : Entries) (k : String),
    lookupEntry (updateAll d l) k =
      match lastLookup l k with
      | some w => some w
      | none => lookupEntry d k := by
  induction l with
  | nil => intro d k; simp [updateAll, lastLookup]
  | cons kv rest ih =>
    intro d k
    obtain ⟨k2, v2⟩ := kv
    rw [updateAll_cons, ih]
    simp only [lastLookup]
    cases h : lastLookup rest k with
    | some w => rfl
    | none =>
      simp only [lookupEntry_updateEntry]
      by_cases h2 : k = k2 <;> simp [h2]

theorem lookupEntry_updateAll_nil (l : Entries) (k : String) :
    lookupEntry (updateAll [] l) k = lastLookup l k := by
  rw [lookupEntry_updateAll]
  cases lastLookup l k <;> simp [lookupEntry]

theorem lastLookup_append (a b : Entries) (k : String) :
    lastLookup (a ++ b) k =
      match lastLookup b k with
      | some w => some w
      | none => lastLookup a k := by
  induction a with
  | nil => simp only [List.nil_append, lastLookup]; cases lastLookup b k <;> rfl
  | cons kv rest ih =>
    obtain ⟨k2, v2⟩ := kv
    simp only [List.cons_append, List.append_eq, lastLookup]
    rw [ih]
    cases lastLookup b k <;> cases lastLookup rest k <;> simp

theorem keysOf_updateEntry (d : Entries) (k : String) (v : PyValue) :
    keysOf (updateEntry d k v) =
      if k ∈ keysOf d then keysOf d else keysOf d ++ [k] := by
  induction d with
  | nil => simp [updateEntry, keysOf]
  | cons kv rest ih =>
    obtain ⟨k2, v2⟩ := kv
    by_cases h1 : k2 = k
    · subst h1; simp [updateEntry, keysOf]
    · have h1s : ¬ k = k2 := fun h => h1 (h ▸ rfl)
      simp only [updateEntry, if_neg h1, keysOf, List.map_cons]
      simp only [keysOf] at ih
      rw [ih]
      by_cases h2 : k ∈ List.map Prod.fst rest
      · simp [h2, h1s, List.mem_cons]
      · simp [h2, h1s, List.mem_cons]

theorem nodupKeys_updateEntry (d : Entries) (k : String) (v : PyValue)
    (h : (keysOf d).Nodup) : (keysOf (updateEntry d k v)).Nodup := by
  rw [keysOf_updateEntry]
  by_cases hm : k ∈ keysOf d
  · simpa [hm] using h
  · simp [hm, List.nodup_append, h]

theorem nodupKeys_updateAll (l : Entries) : ∀ d : Entries,
    (keysOf d).Nodup → (keysOf (updateAll d l)).Nodup := by
  induction l with
  | nil => intro d h; exact h
  | cons kv rest ih =>
    intro d h
    rw [updateAll_cons]
    exact ih _ (nodupKeys_updateEntry _ _ _ h)

theorem lookupEntry_eq_none (d : Entries) (k : String) (h : k ∉ keysOf d) :
    lookupEntry d k = none := by
  induction d with
  | nil => rfl
  | cons kv rest ih =>
    obtain ⟨k2, v2⟩ := kv
    simp only [keysOf, List.map_cons, List.mem_cons, not_or] at h
    simp [lookupEntry, h.1, ih (by simpa [keysOf] using h.2)]

theorem lastLookup_eq_none (d : Entries) (k : String) (h : k ∉ keysOf d) :
    lastLookup d k = none := by
  induction d with
  | nil => rfl
  | cons kv rest ih =>
    obtain ⟨k2, v2⟩ := kv
    simp only [keysOf, List.map_cons, List.mem_cons, not_or] at h
    simp [lastLookup, h.1, ih (by simpa [keysOf] using h.2)]

theorem mem_keys_of_lookupEntry (d : Entries) (k : String) (v : PyValue)
    (h : lookupEntry d k = some v) : k ∈ keysOf d := by
  induction d with
  | nil => simp [lookupEntry] at h
  | cons kv rest ih =>
    obtain ⟨k2, v2⟩ := kv
    by_cases h2 : k = k2
    · simp [keysOf, h2]
    · simp only [lookupEntry, if_neg h2] at h
      simp [keysOf, ih h]
      right
      simpa [keysOf] using ih h

theorem lastLookup_eq_lookupEntry (d : Entries) (k : String)
    (h : (keysOf d).Nodup) : lastLookup d k = lookupEntry d k := by
  induction d with
  | nil => rfl
  | cons kv rest ih =>
    obtain ⟨k2, v2⟩ := kv
    simp only [keysOf, List.map_cons, List.nodup_cons] at h
    by_cases h2 : k = k2
    · subst h2
      have : lastLookup rest k = none := lastLookup_eq_none _ _ (by simpa [keysOf] using h.1)
      simp [lastLookup, lookupEntry, this]
    · simp only [lastLookup, lookupEntry, if_neg h2, ih (by simpa [keysOf] using h.2)]
      cases lookupEntry rest k <;> simp [h2]

theorem lastLookup_updateAll_nil (l : Entries) (k : String) :
    lastLookup (updateAll [] l) k = lastLookup l k := by
  rw [lastLookup_eq_lookupEntry _ _ (nodupKeys_updateAll l [] (by simp [keysOf]))]
  exact lookupEntry_updateAll_nil l k

theorem lastLookup_map_freeze (l : Entries) (k : String) :
    lastLookup (replace_mutable_kwargs_with_immutable_types l) k =
      (lastLookup l k).map freezeValue := by
  induction l with
  | nil => rfl
  | cons kv rest ih =>
    obtain ⟨k2, v2⟩ := kv
    simp only [replace_mutable_kwargs_with_immutable_types, List.map_cons] at *
    simp only [lastLookup, ih]
    cases lastLookup rest k <;> by_cases h : k = k2 <;> simp [h]

/-! ### The binder's resolution order -/

theorem lookup_requestFields (cls : VOClass) (args : List PyValue)
    (kwargs : Entries) (k : String) :
    lookupEntry (requestFields cls args kwargs) k =
      match lastLookup (replace_mutable_kwargs_with_immutable_types kwargs) k with
      | some w => some w
      | none =>
        match lastLookup ((cls.args.drop 1).zip args) k with
        | some w => some w
        | none => lastLookup (((cls.args.drop 1).reverse).zip cls.defaults.reverse) k := by
  unfold requestFields assign_instance_arguments override_default_values_with_args
    assign_default_values
  rw [lookupEntry_updateAll, lastLookup_updateAll_nil, lastLookup_append,
    lookupEntry_updateAll_nil]
  cases lastLookup (replace_mutable_kwargs_with_immutable_types kwargs) k <;>
    cases lastLookup ((cls.args.drop 1).zip args) k <;> simp

theorem keysOf_zip_subset (fs : List String) (vs : List PyValue) (k : String)
    (h : k ∈ keysOf (fs.zip vs)) : k ∈ fs := by
  simp only [keysOf, List.mem_map] at h
  obtain ⟨p, hp, hk⟩ := h
  obtain ⟨a, b⟩ := p
  have := List.of_mem_zip hp
  rw [← hk]
  exact this.1

theorem lastLookup_zip_get (fs : List String) (vs : List PyValue)
    (hnd : fs.Nodup) (i : Nat) (f : String) (hf : fs[i]? = some f) :
    lastLookup (fs.zip vs) f = vs[i]? := by
  induction fs generalizing vs i with
  | nil => simp at hf
  | cons g rest ih =>
    have hcons := List.nodup_cons.mp hnd
    cases vs with
    | nil => simp [List.zip_nil_right, lastLookup]
    | cons a as =>
      rw [List.zip_cons_cons]
      cases i with
      | zero =>
        have hgf : g = f := by simpa using hf
        have hg : f ∉ keysOf (rest.zip as) := fun hmem =>
          hcons.1 (by rw [hgf]; exact keysOf_zip_subset _ _ _ hmem)
        show lastLookup ((g, a) :: rest.zip as) f = (a :: as)[0]?
        simp only [lastLookup, lastLookup_eq_none _ _ hg, List.getElem?_cons_zero]
        simp [hgf]
      | succ n =>
        have hf2 : rest[n]? = some f := by simpa using hf
        have hfm : f ∈ rest := List.getElem?_mem hf2
        have hne : ¬ f = g := fun h => hcons.1 (h ▸ hfm)
        show lastLookup ((g, a) :: rest.zip as) f = (a :: as)[n + 1]?
        simp only [lastLookup, List.getElem?_cons_succ]
        rw [ih as hcons.2 n hf2]
        cases as[n]? <;> simp [hne]

theorem lastLookup_defaults_zip (fs : List String) (ds : List PyValue)
    (hnd : fs.Nodup) (i : Nat) (f : String) (hf : fs[i]? = some f) :
    lastLookup ((fs.reverse).zip ds.reverse) f =
      if i + ds.length < fs.length then none
      else ds[i + ds.length - fs.length]? := by
  have hi : i < fs.length := by
    rcases List.getElem?_eq_some_iff.mp hf with ⟨h, _⟩
    exact h
  have hidx : fs.length - 1 - (fs.length - 1 - i) = i := by omega
  have hj : fs.length - 1 - i < fs.length := by omega
  have hfr : (fs.reverse)[fs.length - 1 - i]? = some f := by
    rw [List.getElem?_reverse hj, hidx]
    exact hf
  have h1 := lastLookup_zip_get fs.reverse ds.reverse
    (List.nodup_reverse.mpr hnd) (fs.length - 1 - i) f hfr
  rw [h1]
  by_cases hcase : fs.length - 1 - i < ds.length
  · rw [List.getElem?_reverse hcase]
    have hguard : ¬ i + ds.length < fs.length := by omega
    rw [if_neg hguard]
    have : ds.length - 1 - (fs.length - 1 - i) = i + ds.length - fs.length := by omega
    rw [this]
  · have hnone : (ds.reverse)[fs.length - 1 - i]? = none := by
      apply List.getElem?_eq_none
      simp only [List.length_reverse]
      omega
    rw [hnone, if_pos (by omega)]

/-- The default value the binder falls back to for the field at (0-based)
declaration index `i`: declared defaults align with the last parameters. -/
def defaultFor (cls : VOClass) (i : Nat) : Option PyValue :=
  if i + cls.defaults.length < cls.args.length - 1 then none
  else cls.defaults[i + cls.defaults.length - (cls.args.length - 1)]?

/-- Full characterisation of the binder: for the field declared at index `i`,
the bound value is the (frozen) keyword value when one names the field,
otherwise the positional value at index `i` when one was supplied, otherwise
the declared default (or nothing). -/
theorem resolve_requestFields (cls : VOClass) (args : List PyValue)
    (kwargs : Entries) (hnd : (cls.args.drop 1).Nodup) (i : Nat) (f : String)
    (hf : (cls.args.drop 1)[i]? = some f) :
    lookupEntry (requestFields cls args kwargs) f =
      match lastLookup kwargs f with
      | some w => some (freezeValue w)
      | none =>
        match args[i]? with
        | some w => some w
        | none => defaultFor cls i := by
  rw [lookup_requestFields, lastLookup_map_freeze,
    lastLookup_zip_get _ args hnd i f hf,
    lastLookup_defaults_zip _ cls.defaults hnd i f hf]
  unfold defaultFor
  simp only [List.length_drop]
  cases lastLookup kwargs f <;> cases args[i]? <;> simp

/-! ### Python value equality: reflexivity and dictionary extensionality -/

theorem pyEqList_self (l : List PyValue) (h : ∀ x ∈ l, pyEq x x = true) :
    pyEqList l l = true := by
  induction l with
  | nil => simp [pyEqList]
  | cons a as ih =>
    simp only [pyEqList, Bool.and_eq_true]
    exact ⟨h a (by simp), ih fun x hx => h x (by simp [hx])⟩

theorem pyMem_self (x : PyValue) (l : List PyValue) (hx : pyEq x x = true)
    (hmem : x ∈ l) : pyMem x l = true := by
  induction l with
  | nil => simp at hmem
  | cons b bs ih =>
    rcases List.mem_cons.mp hmem with h | h
    · subst h; simp [pyMem, hx]
    · simp [pyMem, ih h]

theorem pySubset_of_mem (l1 l2 : List PyValue)
    (h : ∀ x ∈ l1, pyMem x l2 = true) : pySubset l1 l2 = true := by
  induction l1 with
  | nil => simp [pySubset]
  | cons a as ih =>
    simp only [pySubset, Bool.and_eq_true]
    exact ⟨h a (by simp), ih fun x hx => h x (by simp [hx])⟩

theorem entryMem_of_mem (k : String) (v : PyValue) (l : Entries)
    (hmem : (k, v) ∈ l) (hv : pyEq v v = true) : entryMem k v l = true := by
  induction l with
  | nil => simp at hmem
  | cons kv rest ih =>
    obtain ⟨k2, v2⟩ := kv
    rcases List.mem_cons.mp hmem with h | h
    · obtain ⟨h1, h2⟩ := Prod.mk.injEq .. ▸ h
      subst h1; subst h2
      simp [entryMem, hv]
    · simp [entryMem, ih h]

theorem dictSub_of_mem (l1 l2 : Entries)
    (h : ∀ kv ∈ l1, entryMem kv.1 kv.2 l2 = true) : dictSub l1 l2 = true := by
  induction l1 with
  | nil => simp [dictSub]
  | cons kv rest ih =>
    obtain ⟨k2, v2⟩ := kv
    simp only [dictSub, Bool.and_eq_true]
    exact ⟨h (k2, v2) (by simp), ih fun x hx => h x (by simp [hx])⟩

theorem pyEq_refl_sized (n : Nat) : ∀ v : PyValue, sizeOf v < n → pyEq v v = true := by
  induction n with
  | zero => intro v hv; exact absurd hv (Nat.not_lt_zero _)
  | succ m ih =>
    intro v hv
    match v with
    | .noneV => simp [pyEq]
    | .boolV b => simp [pyEq]
    | .intV i => simp [pyEq]
    | .strV s => simp [pyEq]
    | .listV xs =>
      have hx : ∀ x ∈ xs, pyEq x x = true := by
        intro x hxm
        apply ih
        have h1 := List.sizeOf_lt_of_mem hxm
        have h2 : sizeOf (PyValue.listV xs) = 1 + sizeOf xs := by simp
        omega
      simp [pyEq, pyEqList_self xs hx]
    | .tupleV xs =>
      have hx : ∀ x ∈ xs, pyEq x x = true := by
        intro x hxm
        apply ih
        have h1 := List.sizeOf_lt_of_mem hxm
        have h2 : sizeOf (PyValue.tupleV xs) = 1 + sizeOf xs := by simp
        omega
      simp [pyEq, pyEqList_self xs hx]
    | .setV xs =>
      have hx : ∀ x ∈ xs, pyEq x x = true := by
        intro x hxm
        apply ih
        have h1 := List.sizeOf_lt_of_mem hxm
        have h2 : sizeOf (PyValue.setV xs) = 1 + sizeOf xs := by simp
        omega
      have hs : pySubset xs xs = true :=
        pySubset_of_mem xs xs fun x hmem => pyMem_self x xs (hx x hmem) hmem
      simp [pyEq, hs]
    | .dictV es =>
      have hx : ∀ kv ∈ es, pyEq kv.2 kv.2 = true := by
        intro kv hkv
        apply ih
        obtain ⟨a, b⟩ := kv
        have h1 := List.sizeOf_lt_of_mem hkv
        have h2 : sizeOf (PyValue.dictV es) = 1 + sizeOf es := by simp
        have h3 : sizeOf (a, b) = 1 + sizeOf a + sizeOf b := by simp
        simp only []
        omega
      have hd : dictSub es es = true :=
        dictSub_of_mem es es fun kv hkv =>
          entryMem_of_mem kv.1 kv.2 es (by simpa using hkv) (hx kv hkv)
      simp [pyEq, hd]
    | .frozenDictV es =>
      have hx : ∀ kv ∈ es, pyEq kv.2 kv.2 = true := by
        intro kv hkv
        apply ih
        obtain ⟨a, b⟩ := kv
        have h1 := List.sizeOf_lt_of_mem hkv
        have h2 : sizeOf (PyValue.frozenDictV es) = 1 + sizeOf es := by simp
        have h3 : sizeOf (a, b) = 1 + sizeOf a + sizeOf b := by simp
        simp only []
        omega
      have hd : dictSub es es = true :=
        dictSub_of_mem es es fun kv hkv =>
          entryMem_of_mem kv.1 kv.2 es (by simpa using hkv) (hx kv hkv)
      simp [pyEq, hd]

theorem pyEq_refl (v : PyValue) : pyEq v v = true :=
  pyEq_refl_sized (sizeOf v + 1) v (by omega)

theorem mem_keys_of_entryMem (k : String) (v : PyValue) (l : Entries)
    (h : entryMem k v l = true) : k ∈ keysOf l := by
  induction l with
  | nil => simp [entryMem] at h
  | cons kv rest ih =>
    obtain ⟨k2, v2⟩ := kv
    simp only [entryMem, Bool.or_eq_true, Bool.and_eq_true, beq_iff_eq] at h
    rcases h with ⟨h1, _⟩ | h1
    · simp [keysOf, h1]
    · simp [keysOf]
      right
      simpa [keysOf] using ih h1

theorem entryMem_iff (k : String) (v : PyValue) (d : Entries)
    (hnd : (keysOf d).Nodup) :
    entryMem k v d = true ↔
      ∃ w, lookupEntry d k = some w ∧ pyEq v w = true := by
  induction d with
  | nil => simp [entryMem, lookupEntry]
  | cons kv rest ih =>
    obtain ⟨k2, v2⟩ := kv
    simp only [keysOf, List.map_cons, List.nodup_cons] at hnd
    by_cases h2 : k = k2
    · subst h2
      constructor
      · intro h
        simp only [entryMem, Bool.or_eq_true, Bool.and_eq_true, beq_iff_eq] at h
        rcases h with ⟨_, hpe⟩ | hmem
        · exact ⟨v2, by simp [lookupEntry], hpe⟩
        · exact absurd (by simpa [keysOf] using mem_keys_of_entryMem _ _ _ hmem) hnd.1
      · rintro ⟨w, hw, hpe⟩
        simp [lookupEntry] at hw
        subst hw
        simp [entryMem, hpe]
    · simp only [entryMem, lookupEntry, if_neg h2, Bool.or_eq_true,
        Bool.and_eq_true, beq_iff_eq]
      rw [ih (by simpa [keysOf] using hnd.2)]
      constructor
      · rintro (⟨hk, _⟩ | h)
        · exact absurd hk h2
        · exact h
      · intro h
        right
        exact h

theorem dictSub_iff (d1 d2 : Entries) (hnd : (keysOf d1).Nodup) :
    dictSub d1 d2 = true ↔
      ∀ k v, lookupEntry d1 k = some v → entryMem k v d2 = true := by
  induction d1 with
  | nil => simp [dictSub, lookupEntry]
  | cons kv rest ih =>
    obtain ⟨k2, v2⟩ := kv
    simp only [keysOf, List.map_cons, List.nodup_cons] at hnd
    simp only [dictSub, Bool.and_eq_true]
    rw [ih (by simpa [keysOf] using hnd.2)]
    constructor
    · rintro ⟨hhead, htail⟩ k v hlook
      by_cases h2 : k = k2
      · subst h2
        simp [lookupEntry] at hlook
        subst hlook
        exact hhead
      · simp only [lookupEntry, if_neg h2] at hlook
        exact htail k v hlook
    · intro h
      refine ⟨h k2 v2 (by simp [lookupEntry]), ?_⟩
      intro k v hlook
      have hk : k ∈ keysOf rest := mem_keys_of_lookupEntry _ _ _ hlook
      have hne : ¬ k = k2 := fun he => hnd.1 (by simpa [keysOf, he] using hk)
      exact h k v (by simp [lookupEntry, if_neg hne, hlook])

/-- "The Bound Fields mappings are equal under per-value equality": every key
bound in one instance is bound in the other with a `==`-equal value, in both
directions. -/
def dictMapEquiv (d1 d2 : Entries) : Prop :=
  (∀ k v, lookupEntry d1 k = some v →
    ∃ w, lookupEntry d2 k = some w ∧ pyEq v w = true) ∧
  (∀ k w, lookupEntry d2 k = some w →
    ∃ v, lookupEntry d1 k = some v ∧ pyEq w v = true)

theorem dictEqPy_iff (d1 d2 : Entries) (h1 : (keysOf d1).Nodup)
    (h2 : (keysOf d2).Nodup) :
    dictEqPy d1 d2 = true ↔ dictMapEquiv d1 d2 := by
  unfold dictEqPy dictMapEquiv
  rw [Bool.and_eq_true, dictSub_iff d1 d2 h1, dictSub_iff d2 d1 h2]
  constructor
  · rintro ⟨ha, hb⟩
    constructor
    · intro k v hl; exact (entryMem_iff k v d2 h2).mp (ha k v hl)
    · intro k w hl; exact (entryMem_iff k w d1 h1).mp (hb k w hl)
  · rintro ⟨ha, hb⟩
    constructor
    · intro k v hl; exact (entryMem_iff k v d2 h2).mpr (ha k v hl)
    · intro k w hl; exact (entryMem_iff k w d1 h1).mpr (hb k w hl)

theorem dictEqPy_of_lookup_eq (d1 d2 : Entries) (h1 : (keysOf d1).Nodup)
    (h2 : (keysOf d2).Nodup)
    (h : ∀ k, lookupEntry d1 k = lookupEntry d2 k) : dictEqPy d1 d2 = true :=
  (dictEqPy_iff d1 d2 h1 h2).mpr
    ⟨fun k v hl => ⟨v, h k ▸ hl, pyEq_refl v⟩,
     fun k w hl => ⟨w, by rw [h k]; exact hl, pyEq_refl w⟩⟩

/-- Python `==` lifted to one optional value (absent keys only equal absent
keys). -/
def pyOptEq : Option PyValue → Option PyValue → Bool
  | some a, some b => pyEq a b
  | none, none => true
  | _, _ => false

theorem dictEqPy_eq_false_of_diff (d1 d2 : Entries) (w : String)
    (h1 : (keysOf d1).Nodup) (h2 : (keysOf d2).Nodup)
    (hdiff : pyOptEq (lookupEntry d1 w) (lookupEntry d2 w) = false) :
    dictEqPy d1 d2 = false := by
  cases hb : dictEqPy d1 d2 with
  | false => rfl
  | true =>
    exfalso
    have hme := (dictEqPy_iff d1 d2 h1 h2).mp hb
    cases hl1 : lookupEntry d1 w with
    | some v =>
      obtain ⟨u, hl2, hpe⟩ := hme.1 w v hl1
      rw [hl1, hl2] at hdiff
      simp only [pyOptEq] at hdiff
      rw [hpe] at hdiff
      exact Bool.noConfusion hdiff
    | none =>
      cases hl2 : lookupEntry d2 w with
      | some u =>
        obtain ⟨v, hl1b, _⟩ := hme.2 w u hl2
        rw [hl1b] at hl1
        exact Option.noConfusion hl1
      | none =>
        rw [hl1, hl2] at hdiff
        simp [pyOptEq] at hdiff

/-! ### Representation congruence, pipeline elimination, invariant engine -/

theorem reprParts_congr (d1 d2 : Entries) (fs : List String)
    (h : ∀ f ∈ fs, lookupEntry d1 f = lookupEntry d2 f) :
    reprParts d1 fs = reprParts d2 fs := by
  induction fs with
  | nil => rfl
  | cons f rest ih =>
    simp only [reprParts]
    rw [h f (by simp), ih fun g hg => h g (by simp [hg])]

theorem reprVO_congr (i1 i2 : VOInstance) (hcls : i1.cls = i2.cls)
    (h : ∀ f ∈ i1.cls.args.drop 1,
      lookupEntry i1.dict f = lookupEntry i2.dict f) :
    reprVO i1 = reprVO i2 := by
  unfold reprVO
  rw [← hcls, reprParts_congr i1.dict i2.dict _ h]

theorem nodupKeys_requestFields (cls : VOClass) (args : List PyValue)
    (kwargs : Entries) : (keysOf (requestFields cls args kwargs)).Nodup := by
  unfold requestFields assign_instance_arguments override_default_values_with_args
    assign_default_values
  exact nodupKeys_updateAll _ _ (nodupKeys_updateAll _ _ (by simp [keysOf]))

theorem construct_ok_elim (cls : VOClass) (args : List PyValue)
    (kwargs : Entries) (inst : VOInstance)
    (h : construct cls args kwargs = .ok inst) :
    inst.cls = cls ∧ inst.dict = requestFields cls args kwargs ∧
      check_invariants cls.invariants (requestFields cls args kwargs) = .ok () := by
  unfold construct at h
  cases h1 : check_class_preconditions cls args with
  | error e => rw [h1] at h; exact Except.noConfusion h
  | ok u =>
    rw [h1] at h
    cases h2 : check_invariants cls.invariants (requestFields cls args kwargs) with
    | error e => rw [h2] at h; exact Except.noConfusion h
    | ok u2 =>
      rw [h2] at h
      injection h with h3
      subst h3
      refine ⟨rfl, rfl, ?_⟩
      cases u2
      rfl

theorem construct_checks_pass (cls : VOClass) (args : List PyValue)
    (kwargs : Entries) (h1 : ¬ cls.args.length ≤ MIN_NUMBER_ARGS)
    (h2 : args.any PyValue.isNone = false) :
    construct cls args kwargs =
      match check_invariants cls.invariants (requestFields cls args kwargs) with
      | .error e => .error e
      | .ok _ => .ok ⟨cls, requestFields cls args kwargs⟩ := by
  unfold construct check_class_preconditions
  rw [if_neg h1, if_neg (by simp [h2])]

theorem check_invariants_append_true
    (pre rest : List (String × (Entries → PyValue))) (d : Entries)
    (h : ∀ p ∈ pre, p.2 d = .boolV true) :
    check_invariants (pre ++ rest) d = check_invariants rest d := by
  induction pre with
  | nil => rfl
  | cons p ps ih =>
    obtain ⟨nm, inv⟩ := p
    have hp : inv d = .boolV true := h (nm, inv) (by simp)
    simp only [List.cons_append, check_invariants, invariant_execute, hp]
    exact ih fun q hq => h q (by simp [hq])

theorem check_invariants_head_false (nm : String) (inv : Entries → PyValue)
    (post : List (String × (Entries → PyValue))) (d : Entries)
    (hinv : inv d = .boolV false) :
    check_invariants ((nm, inv) :: post) d =
      .error (.violatedInvariantE (d.map Prod.snd) nm) := by
  simp [check_invariants, invariant_execute, hinv]

theorem check_invariants_head_nonbool (nm : String) (inv : Entries → PyValue)
    (post : List (String × (Entries → PyValue))) (d : Entries)
    (hnb : PyValue.isBool (inv d) = false) :
    check_invariants ((nm, inv) :: post) d = .error .invariantReturnValueE := by
  simp only [check_invariants, invariant_execute]
  cases hv : inv d <;> simp_all [PyValue.isBool]

theorem invariant_execute_eq_ok_true (inv : Entries → PyValue) (d : Entries)
    (h : invariant_execute inv d = .ok true) : inv d = .boolV true := by
  unfold invariant_execute at h
  cases hv : inv d <;> rw [hv] at h
  case boolV b =>
    injection h with hb
    rw [hb]
  all_goals exact Except.noConfusion h

theorem check_invariants_ok_all (invs : List (String × (Entries → PyValue)))
    (d : Entries) (u : Unit) (h : check_invariants invs d = .ok u) :
    ∀ p ∈ invs, p.2 d = .boolV true := by
  induction invs with
  | nil => intro p hp; simp at hp
  | cons q rest ih =>
    obtain ⟨nm, inv⟩ := q
    intro p hp
    simp only [check_invariants] at h
    cases he : invariant_execute inv d with
    | error e => rw [he] at h; exact Except.noConfusion h
    | ok b =>
      rw [he] at h
      cases b with
      | false => exact Except.noConfusion h
      | true =>
        rcases List.mem_cons.mp hp with hpe | hm
        · subst hpe
          exact invariant_execute_eq_ok_true inv d he
        · exact ih h p hm

/-! ### Concrete classes used by the witnesses -/

/-- A class declaring `(x, y=0)`, the spec's precedence example. -/
def xyClass : VOClass := ⟨"T", ["self", "x", "y"], [PyValue.intV 0], []⟩

/-- A one-field class `(x)` with no invariants. -/
def boxClass : VOClass := ⟨"Box", ["self", "x"], [], []⟩

/-- The spec's `Money(amount, currency="USD")` without invariants. -/
def moneyClass : VOClass :=
  ⟨"Money", ["self", "amount", "currency"], [PyValue.strV "USD"], []⟩

/-- The spec's `amount >= 0` invariant, reading the bound field `amount`. -/
def nonneg_invariant : Entries → PyValue := fun d =>
  match lookupEntry d "amount" with
  | some (PyValue.intV n) => PyValue.boolV (decide (0 ≤ n))
  | _ => PyValue.boolV false

/-- `Money(amount)` with the `amount >= 0` invariant. -/
def moneyInvClass : VOClass :=
  ⟨"Money", ["self", "amount"], [], [("amount_nonneg", nonneg_invariant)]⟩

/-- An invariant whose predicate returns the non-boolean `7`. -/
def truthy_invariant : Entries → PyValue := fun _ => PyValue.intV 7

/-- A class whose only invariant returns a non-boolean. -/
def weirdClass : VOClass :=
  ⟨"Weird", ["self", "x"], [], [("truthy", truthy_invariant)]⟩

/-- A class whose constructor declares no field beyond the receiver. -/
def dotClass : VOClass := ⟨"Dot", ["self"], [], []⟩

/-! ### The claims -/

/-- C1: for every type declaring fields with defaults and every construction
request, the bound value of each declared field is resolved with precedence
lowest to highest: declared default, then positional value in declaration
order, then keyword value by name — a keyword value always overrides a
positional value and a default for the same field, and a positional value
always overrides a default. -/
theorem claim_C1 (cls : VOClass) (args : List PyValue) (kwargs : Entries)
    (hnd : (cls.args.drop 1).Nodup) (i : Nat) (f : String)
    (hf : (cls.args.drop 1)[i]? = some f) :
    lookupEntry (requestFields cls args kwargs) f =
      match lastLookup kwargs f with
      | some w => some (freezeValue w)
      | none =>
        match args[i]? with
        | some w => some w
        | none => defaultFor cls i :=
  resolve_requestFields cls args kwargs hnd i f hf

/-- Witness for C1 at the spec's example: declaring `(x, y=0)` and
constructing with positional `1` and keyword `y=5` binds `x=1, y=5`. -/
theorem claim_C1_witness :
    lookupEntry (requestFields xyClass [PyValue.intV 1] [("y", PyValue.intV 5)]) "y"
        = some (PyValue.intV 5) ∧
      lookupEntry (requestFields xyClass [PyValue.intV 1] [("y", PyValue.intV 5)]) "x"
        = some (PyValue.intV 1) :=
  ⟨claim_C1 xyClass [PyValue.intV 1] [("y", PyValue.intV 5)] (by decide) 1 "y" rfl,
   claim_C1 xyClass [PyValue.intV 1] [("y", PyValue.intV 5)] (by decide) 0 "x" rfl⟩

/-- C2 as stated is false on the code: conversion to immutable types is
applied to keyword values only.  Constructing `Box` with the mutable list
`[1]` supplied positionally succeeds and binds field `x` to the *list*
`[1]` — not to the tuple `(1,)` the claim requires. -/
theorem claim_C2_counterexample :
    construct boxClass [PyValue.listV [PyValue.intV 1]] []
        = Except.ok ⟨boxClass, [("x", PyValue.listV [PyValue.intV 1])]⟩ ∧
      PyValue.listV [PyValue.intV 1] ≠ PyValue.tupleV [PyValue.intV 1] :=
  ⟨rfl, fun h => PyValue.noConfusion h⟩

/-- C2 (amended): every *keyword-supplied* bound value that is a mapping is
replaced by a frozen-mapping variant with the same items, and every
keyword-supplied ordered collection or set by a fixed-length immutable
sequence of the same elements (freezing is shallow: items and elements are
kept untouched); a *positionally* supplied value is bound unchanged, even
when it is a mutable container. -/
theorem claim_C2 (cls : VOClass) (args : List PyValue) (kwargs : Entries)
    (hnd : (cls.args.drop 1).Nodup) (i : Nat) (f : String)
    (hf : (cls.args.drop 1)[i]? = some f) :
    (∀ w, lastLookup kwargs f = some w →
      lookupEntry (requestFields cls args kwargs) f = some (freezeValue w)) ∧
    (lastLookup kwargs f = none → ∀ v, args[i]? = some v →
      lookupEntry (requestFields cls args kwargs) f = some v) ∧
    (∀ es, freezeValue (.dictV es) = .frozenDictV es) ∧
    (∀ xs, freezeValue (.listV xs) = .tupleV xs) ∧
    (∀ xs, freezeValue (.setV xs) = .tupleV xs) := by
  refine ⟨?_, ?_, fun es => rfl, fun xs => rfl, fun xs => rfl⟩
  · intro w hw
    rw [resolve_requestFields cls args kwargs hnd i f hf, hw]
  · intro hw v hv
    rw [resolve_requestFields cls args kwargs hnd i f hf, hw, hv]

/-- Witness for C2 (amended): the keyword-supplied list `[1]` is bound as
the tuple `(1,)`. -/
theorem claim_C2_witness :
    lookupEntry (requestFields boxClass [] [("x", PyValue.listV [PyValue.intV 1])]) "x"
      = some (PyValue.tupleV [PyValue.intV 1]) :=
  (claim_C2 boxClass [] [("x", PyValue.listV [PyValue.intV 1])]
      (by decide) 0 "x" rfl).1
    (PyValue.listV [PyValue.intV 1]) rfl

/-- C3 as stated is false on the code: `__ne__` is *not* the negation of
`__eq__` when the other operand is `None` — it evaluates `None.__dict__`
and raises `AttributeError` instead of returning `True`. -/
theorem claim_C3_counterexample :
    vo_ne ⟨boxClass, [("x", PyValue.intV 1)]⟩ none
      ≠ Except.ok (! vo_eq ⟨boxClass, [("x", PyValue.intV 1)]⟩ none) :=
  fun h => Except.noConfusion h

/-- C3 (amended): two instances are equal iff their bound-fields mappings are
equal under per-value equality; an instance is never equal to `None`; the
inequality operation returns the logical negation of the equality operation
when the other operand is an instance, but against `None` it raises
`AttributeError` rather than returning the negation. -/
theorem claim_C3 :
    (∀ a b : VOInstance, (keysOf a.dict).Nodup → (keysOf b.dict).Nodup →
      (vo_eq a (some b) = true ↔ dictMapEquiv a.dict b.dict)) ∧
    (∀ a : VOInstance, vo_eq a none = false) ∧
    (∀ a b : VOInstance, vo_ne a (some b) = Except.ok (! vo_eq a (some b))) ∧
    (∀ a : VOInstance, vo_ne a none = Except.error Err.attributeErrorE) :=
  ⟨fun a b h1 h2 => dictEqPy_iff a.dict b.dict h1 h2,
   fun _ => rfl, fun _ _ => rfl, fun _ => rfl⟩

/-- Witness for C3 (amended): two instances with the same single bound field
are equal. -/
theorem claim_C3_witness :
    vo_eq ⟨boxClass, [("x", PyValue.intV 1)]⟩
      (some ⟨boxClass, [("x", PyValue.intV 1)]⟩) = true := by
  refine (claim_C3.1 ⟨boxClass, [("x", PyValue.intV 1)]⟩
      ⟨boxClass, [("x", PyValue.intV 1)]⟩ (by decide) (by decide)).mpr ⟨?_, ?_⟩
  · intro k v hl
    refine ⟨v, hl, ?_⟩
    by_cases hk : k = "x"
    · rw [hk] at hl
      simp only [lookupEntry, if_pos rfl] at hl
      cases hl
      simp [pyEq]
    · simp only [lookupEntry, if_neg hk] at hl
      exact Option.noConfusion hl
  · intro k v hl
    refine ⟨v, hl, ?_⟩
    by_cases hk : k = "x"
    · rw [hk] at hl
      simp only [lookupEntry, if_pos rfl] at hl
      cases hl
      simp [pyEq]
    · simp only [lookupEntry, if_neg hk] at hl
      exact Option.noConfusion hl

/-- C4: two instances constructed from the same type with identical effective
field values (all declared invariants holding, which successful construction
guarantees) are equal, have equal hashes and identical string representations,
the representation being `TypeName(field1=value1, ...)` in declaration order
(see `reprVO`) and the hash being derived from it (see `hashVO`). -/
theorem claim_C4 (cls : VOClass) (a1 : List PyValue) (k1 : Entries)
    (a2 : List PyValue) (k2 : Entries) (i1 i2 : VOInstance)
    (h1 : construct cls a1 k1 = .ok i1) (h2 : construct cls a2 k2 = .ok i2)
    (hsame : ∀ k, lookupEntry i1.dict k = lookupEntry i2.dict k) :
    vo_eq i1 (some i2) = true ∧ reprVO i1 = reprVO i2 ∧ hashVO i1 = hashVO i2 := by
  obtain ⟨hc1, hd1, _⟩ := construct_ok_elim _ _ _ _ h1
  obtain ⟨hc2, hd2, _⟩ := construct_ok_elim _ _ _ _ h2
  have hn1 : (keysOf i1.dict).Nodup := by
    rw [hd1]; exact nodupKeys_requestFields _ _ _
  have hn2 : (keysOf i2.dict).Nodup := by
    rw [hd2]; exact nodupKeys_requestFields _ _ _
  have hrepr : reprVO i1 = reprVO i2 :=
    reprVO_congr i1 i2 (hc1.trans hc2.symm) fun f _ => hsame f
  exact ⟨dictEqPy_of_lookup_eq _ _ hn1 hn2 hsame, hrepr,
    by unfold hashVO; rw [hrepr]⟩

/-- Witness for C4 at the spec's example: `Money(10, currency="EUR")` and
`Money(amount=10, currency="EUR")` produce equal instances with equal hashes
and identical representations. -/
theorem claim_C4_witness :
    vo_eq ⟨moneyClass, [("currency", PyValue.strV "EUR"), ("amount", PyValue.intV 10)]⟩
        (some ⟨moneyClass, [("currency", PyValue.strV "EUR"), ("amount", PyValue.intV 10)]⟩)
        = true ∧
      reprVO ⟨moneyClass, [("currency", PyValue.strV "EUR"), ("amount", PyValue.intV 10)]⟩
        = reprVO ⟨moneyClass, [("currency", PyValue.strV "EUR"), ("amount", PyValue.intV 10)]⟩ ∧
      hashVO ⟨moneyClass, [("currency", PyValue.strV "EUR"), ("amount", PyValue.intV 10)]⟩
        = hashVO ⟨moneyClass, [("currency", PyValue.strV "EUR"), ("amount", PyValue.intV 10)]⟩ :=
  claim_C4 moneyClass [PyValue.intV 10] [("currency", PyValue.strV "EUR")]
    [] [("amount", PyValue.intV 10), ("currency", PyValue.strV "EUR")]
    ⟨moneyClass, [("currency", PyValue.strV "EUR"), ("amount", PyValue.intV 10)]⟩
    ⟨moneyClass, [("currency", PyValue.strV "EUR"), ("amount", PyValue.intV 10)]⟩
    rfl rfl fun k => rfl

/-- C5: on every constructed instance, every attribute assignment — whatever
the name and value, from outside code or from the object's own methods —
signals `CannotBeChangeException` (the immutability violation), and the bound
field values are unchanged by the attempt. -/
theorem claim_C5 (inst : VOInstance) (name : String) (value : PyValue) :
    (vo_setattr inst name value).1 = Err.cannotBeChangeE ∧
      (vo_setattr inst name value).2.dict = inst.dict :=
  ⟨rfl, rfl⟩

/-- C6: when the invariant engine reaches a predicate that evaluates to false
(every earlier-evaluated predicate having returned `True`), construction
signals `ViolatedInvariantException` carrying the current field values and the
identity of that failing predicate — whatever invariants follow it — and no
instance is returned; and construction succeeds only if every discovered
invariant returns `True`. -/
theorem claim_C6 (cls : VOClass) (args : List PyValue) (kwargs : Entries) :
    (∀ pre nm inv post,
      cls.invariants = pre ++ (nm, inv) :: post →
      (∀ p ∈ pre, p.2 (requestFields cls args kwargs) = PyValue.boolV true) →
      inv (requestFields cls args kwargs) = PyValue.boolV false →
      1 < cls.args.length →
      args.any PyValue.isNone = false →
      construct cls args kwargs =
        .error (.violatedInvariantE
          ((requestFields cls args kwargs).map Prod.snd) nm)) ∧
    (∀ inst, construct cls args kwargs = .ok inst →
      ∀ p ∈ cls.invariants,
        p.2 (requestFields cls args kwargs) = PyValue.boolV true) := by
  constructor
  · intro pre nm inv post hsplit hpre hinv hlen hnone
    rw [construct_checks_pass cls args kwargs
        (by simp only [MIN_NUMBER_ARGS]; omega) hnone,
      hsplit, check_invariants_append_true pre _ _ hpre,
      check_invariants_head_false nm inv post _ hinv]
  · intro inst h p hp
    obtain ⟨_, _, hok⟩ := construct_ok_elim _ _ _ _ h
    exact check_invariants_ok_all _ _ _ hok p hp

/-- Witness for C6: `Money(-5)` with the invariant `amount >= 0` signals
`ViolatedInvariantException` carrying the field values `[-5]` and the failing
invariant's identity. -/
theorem claim_C6_witness :
    construct moneyInvClass [PyValue.intV (-5)] [] =
      .error (.violatedInvariantE [PyValue.intV (-5)] "amount_nonneg") :=
  (claim_C6 moneyInvClass [PyValue.intV (-5)] []).1 [] "amount_nonneg"
    nonneg_invariant [] rfl
    (by intro p hp; exact absurd hp (List.not_mem_nil p)) rfl (by decide) rfl

/-- C7: when the invariant engine reaches a predicate returning a value that
is not a boolean (every earlier-evaluated predicate having returned `True`),
construction signals `InvariantReturnValueException` and no instance is
returned. -/
theorem claim_C7 (cls : VOClass) (args : List PyValue) (kwargs : Entries)
    (pre : List (String × (Entries → PyValue))) (nm : String)
    (inv : Entries → PyValue) (post : List (String × (Entries → PyValue)))
    (hsplit : cls.invariants = pre ++ (nm, inv) :: post)
    (hpre : ∀ p ∈ pre, p.2 (requestFields cls args kwargs) = PyValue.boolV true)
    (hnb : PyValue.isBool (inv (requestFields cls args kwargs)) = false)
    (hlen : 1 < cls.args.length)
    (hnone : args.any PyValue.isNone = false) :
    construct cls args kwargs = .error .invariantReturnValueE := by
  rw [construct_checks_pass cls args kwargs
      (by simp only [MIN_NUMBER_ARGS]; omega) hnone,
    hsplit, check_invariants_append_true pre _ _ hpre,
    check_invariants_head_nonbool nm inv post _ hnb]

/-- Witness for C7: a class whose invariant returns `7` signals
`InvariantReturnValueException` on construction. -/
theorem claim_C7_witness :
    construct weirdClass [PyValue.intV 1] [] = .error .invariantReturnValueE :=
  claim_C7 weirdClass [PyValue.intV 1] [] [] "truthy" truthy_invariant []
    rfl (by intro p hp; exact absurd hp (List.not_mem_nil p)) rfl (by decide) rfl

/-- C8: for every construction request on a type that does declare fields, if
any positional argument is `None`, construction signals
`ArgWithoutValueException` (the missing-value error) and no instance is
returned.  (On a type declaring no fields the declaration check fires first —
see C9.) -/
theorem claim_C8 (cls : VOClass) (args : List PyValue) (kwargs : Entries)
    (hdecl : 1 < cls.args.length) (hnone : args.any PyValue.isNone = true) :
    construct cls args kwargs = .error .argWithoutValueE := by
  unfold construct check_class_preconditions
  rw [if_neg (by simp only [MIN_NUMBER_ARGS]; omega), if_pos (by simp [hnone])]

/-- Witness for C8: `Box(None)` signals `ArgWithoutValueException`. -/
theorem claim_C8_witness :
    construct boxClass [PyValue.noneV] [] = .error .argWithoutValueE :=
  claim_C8 boxClass [PyValue.noneV] [] (by decide) rfl

/-- C9: on a type whose declared constructor shape has zero fields beyond the
implicit receiver, every construction attempt signals
`NotDeclaredArgsException` (the declaration error) and no instance is
returned. -/
theorem claim_C9 (cls : VOClass) (args : List PyValue) (kwargs : Entries)
    (hdecl : cls.args.length ≤ 1) :
    construct cls args kwargs = .error .notDeclaredArgsE := by
  unfold construct check_class_preconditions
  rw [if_pos (by simp only [MIN_NUMBER_ARGS]; omega)]

/-- Witness for C9: a zero-field class signals `NotDeclaredArgsException`,
with or without arguments supplied. -/
theorem claim_C9_witness :
    construct dotClass [] [] = .error .notDeclaredArgsE ∧
      construct dotClass [PyValue.intV 3] [("x", PyValue.intV 1)]
        = .error .notDeclaredArgsE :=
  ⟨claim_C9 dotClass [] [] (by decide),
   claim_C9 dotClass [PyValue.intV 3] [("x", PyValue.intV 1)] (by decide)⟩

/-- C10: a keyword argument whose name is not among the declared fields is
silently accepted and bound as an instance field (frozen like any keyword
value); it participates in equality, which compares all bound fields, but is
omitted from the string representation and the hash, which enumerate only
declared fields — so two instances agreeing on declared fields but differing
in such an undeclared keyword field are unequal yet have identical string
representations and identical hashes. -/
theorem claim_C10 (cls : VOClass) (a1 : List PyValue) (k1 : Entries)
    (a2 : List PyValue) (k2 : Entries) (i1 i2 : VOInstance) (w : String)
    (wv : PyValue)
    (h1 : construct cls a1 k1 = .ok i1) (h2 : construct cls a2 k2 = .ok i2)
    (hbound : lastLookup k1 w = some wv)
    (hsame : ∀ f ∈ cls.args.drop 1,
      lookupEntry i1.dict f = lookupEntry i2.dict f)
    (hdiff : pyOptEq (lookupEntry i1.dict w) (lookupEntry i2.dict w) = false) :
    lookupEntry i1.dict w = some (freezeValue wv) ∧
      vo_eq i1 (some i2) = false ∧
      reprVO i1 = reprVO i2 ∧ hashVO i1 = hashVO i2 := by
  obtain ⟨hc1, hd1, _⟩ := construct_ok_elim _ _ _ _ h1
  obtain ⟨hc2, hd2, _⟩ := construct_ok_elim _ _ _ _ h2
  have hn1 : (keysOf i1.dict).Nodup := by
    rw [hd1]; exact nodupKeys_requestFields _ _ _
  have hn2 : (keysOf i2.dict).Nodup := by
    rw [hd2]; exact nodupKeys_requestFields _ _ _
  have hrepr : reprVO i1 = reprVO i2 :=
    reprVO_congr i1 i2 (hc1.trans hc2.symm)
      fun f hf => hsame f (by rw [hc1] at hf; exact hf)
  refine ⟨?_, ?_, hrepr, by unfold hashVO; rw [hrepr]⟩
  · rw [hd1]
    rw [lookup_requestFields, lastLookup_map_freeze, hbound]
    rfl
  · show dictEqPy i1.dict i2.dict = false
    exact dictEqPy_eq_false_of_diff _ _ w hn1 hn2 hdiff

/-- Witness for C10: `Box(1, w=2)` and `Box(1, w=3)` bind the undeclared
`w`, are unequal, yet share the representation `Box(x=1)` and its hash. -/
theorem claim_C10_witness :
    lookupEntry [("x", PyValue.intV 1), ("w", PyValue.intV 2)] "w"
        = some (PyValue.intV 2) ∧
      vo_eq ⟨boxClass, [("x", PyValue.intV 1), ("w", PyValue.intV 2)]⟩
        (some ⟨boxClass, [("x", PyValue.intV 1), ("w", PyValue.intV 3)]⟩) = false ∧
      reprVO ⟨boxClass, [("x", PyValue.intV 1), ("w", PyValue.intV 2)]⟩
        = reprVO ⟨boxClass, [("x", PyValue.intV 1), ("w", PyValue.intV 3)]⟩ ∧
      hashVO ⟨boxClass, [("x", PyValue.intV 1), ("w", PyValue.intV 2)]⟩
        = hashVO ⟨boxClass, [("x", PyValue.intV 1), ("w", PyValue.intV 3)]⟩ :=
  claim_C10 boxClass [PyValue.intV 1] [("w", PyValue.intV 2)]
    [PyValue.intV 1] [("w", PyValue.intV 3)]
    ⟨boxClass, [("x", PyValue.intV 1), ("w", PyValue.intV 2)]⟩
    ⟨boxClass, [("x", PyValue.intV 1), ("w", PyValue.intV 3)]⟩
    "w" (PyValue.intV 2) rfl rfl rfl
    (by
      intro f hf
      have : f = "x" := by simpa [boxClass] using hf
      rw [this]
      rfl)
    (by
      show pyOptEq (some (PyValue.intV 2)) (some (PyValue.intV 3)) = false
      simp [pyOptEq, pyEq])

end SVO
